import Mathlib

/-!
Shallow embedding of the suffix-tree core of `DNA_Repeat_Finder.py`
(class `DNARepeatFinder.SuffixTree`): Ukkonen-style construction
(`build_suffix_tree`) and repeat extraction (`find_repeats`).

Python objects are modelled by an arena (`Array SuffixTreeNode`) addressed
by `Nat` indices; the root is index 0.  Python `dict` children are modelled
as insertion-ordered association lists with update-in-place semantics.
Python `int` becomes `Int`.  Python string indexing `text[k]` (which accepts
negative indices) is modelled totally by `pyIndex`, returning a padding
character `'?'` out of range; `'?'` never occurs in any text, so a
divergence from CPython could only arise on an `IndexError`, which does not
occur on the executions the theorems below evaluate.  The unbounded
`while remainder > 0` loop is modelled with explicit fuel; exhausted fuel
yields `none`.
-/

namespace DNARepeatFinder

/-- Node of the suffix tree, as in `SuffixTreeNode.__init__`: a `start` and
`end` index into the text (the root uses (-1, -1)), a children map from
first edge character to child, and an optional suffix link. -/
structure SuffixTreeNode where
  start : Int
  end_ : Int
  children : List (Char × Nat)
  suffixLink : Option Nat
deriving Repr, DecidableEq

/-- The root node as created by `SuffixTree.__init__`: `SuffixTreeNode(-1, -1)`. -/
def rootNode : SuffixTreeNode := ⟨-1, -1, [], none⟩

/-- Python `text[k]` on a character list, totalised: negative indices count
from the end; out-of-range returns the padding character `'?'`. -/
def pyIndex (t : List Char) (k : Int) : Char :=
  let k' : Int := if k < 0 then k + t.length else k
  if 0 ≤ k' then t.getD k'.toNat '?' else '?'

/-- Python slice `t[a:b]` on a character list (indices normalised and
clamped as in CPython). -/
def pySlice (t : List Char) (a b : Int) : List Char :=
  let norm : Int → Nat := fun k => (max 0 (if k < 0 then k + t.length else k)).toNat
  (t.take (norm b)).drop (norm a)

/-- Lookup in a Python-dict-like association list. -/
def lookupChild : List (Char × Nat) → Char → Option Nat
  | [], _ => none
  | (c', v) :: t, c => if c' = c then some v else lookupChild t c

/-- `d[c] = v` on a Python-dict-like association list: update in place if the
key exists (keeping its position), else append at the end. -/
def setChildAssoc : List (Char × Nat) → Char → Nat → List (Char × Nat)
  | [], c, v => [(c, v)]
  | (c', v') :: t, c, v =>
      if c' = c then (c, v) :: t else (c', v') :: setChildAssoc t c v

/-- Read a node from the arena (total; out-of-range yields the root default,
which never happens on indices the algorithm produces). -/
def getNode (a : Array SuffixTreeNode) (i : Nat) : SuffixTreeNode :=
  a.getD i rootNode

/-- Update a node in the arena. -/
def modifyNode (a : Array SuffixTreeNode) (i : Nat)
    (f : SuffixTreeNode → SuffixTreeNode) : Array SuffixTreeNode :=
  a.setD i (f (getNode a i))

/-- `node.children[c] = v` through the arena. -/
def setChildOf (a : Array SuffixTreeNode) (i : Nat) (c : Char) (v : Nat) :
    Array SuffixTreeNode :=
  modifyNode a i (fun nd => { nd with children := setChildAssoc nd.children c v })

/-- `node.suffix_link = v` through the arena. -/
def setSuffixLinkOf (a : Array SuffixTreeNode) (i : Nat) (v : Nat) :
    Array SuffixTreeNode :=
  modifyNode a i (fun nd => { nd with suffixLink := some v })

/-- State of `build_suffix_tree`'s loop: the arena plus the active point,
remainder and pending suffix-link variables of lines 22–26. -/
structure BuildState where
  arena : Array SuffixTreeNode
  activeNode : Nat
  activeEdge : Int
  activeLength : Int
  remainder : Int
  lastNewNode : Option Nat
deriving Repr

/-- Lines 74–80 of `build_suffix_tree`: decrement `remainder`, then either
shrink the active point at the root or follow the suffix link. -/
def stepAfterRule (i : Nat) (st : BuildState) : BuildState :=
  let st := { st with remainder := st.remainder - 1 }
  if st.activeNode = 0 ∧ st.activeLength > 0 then
    { st with activeLength := st.activeLength - 1,
              activeEdge := (i : Int) - st.remainder + 1 }
  else
    { st with activeNode := ((getNode st.arena st.activeNode).suffixLink).getD 0 }

/-- Lines 37–42 of `build_suffix_tree`: create a new leaf node `(i, n)`,
hang it under the active node keyed by `edgeChar`, and resolve a pending
suffix link to the active node. -/
def ruleNewLeaf (i n : Nat) (edgeChar : Char) (st : BuildState) : BuildState :=
  let leafIdx := st.arena.size
  let arena := st.arena.push ⟨(i : Int), (n : Int), [], none⟩
  let arena := setChildOf arena st.activeNode edgeChar leafIdx
  let arena :=
    match st.lastNewNode with
    | some ln => setSuffixLinkOf arena ln st.activeNode
    | none => arena
  { st with arena := arena, lastNewNode := none }

/-- Lines 54–60 of `build_suffix_tree` (Rule 1): a match on the edge;
increment `active_length` and resolve a pending suffix link before the
`break`. -/
def ruleMatch (st : BuildState) : BuildState :=
  let arena :=
    match st.lastNewNode with
    | some ln => setSuffixLinkOf st.arena ln st.activeNode
    | none => st.arena
  { st with arena := arena,
            activeLength := st.activeLength + 1,
            lastNewNode := none }

/-- Lines 63–72 of `build_suffix_tree`: split the edge to `nextIdx`,
creating a split node and a new leaf, re-keying the old child under the
split node, and resolving a pending suffix link to the split node. -/
def ruleSplit (text : List Char) (i n : Nat) (edgeChar : Char) (nextIdx : Nat)
    (st : BuildState) : BuildState :=
  let nextNode := getNode st.arena nextIdx
  let splitIdx := st.arena.size
  let arena := st.arena.push
    ⟨nextNode.start, nextNode.start + st.activeLength, [], none⟩
  let arena := setChildOf arena st.activeNode edgeChar splitIdx
  let leafIdx := arena.size
  let arena := arena.push ⟨(i : Int), (n : Int), [], none⟩
  let arena := setChildOf arena splitIdx (pyIndex text (i : Int)) leafIdx
  let arena := modifyNode arena nextIdx
    (fun nd => { nd with start := nd.start + st.activeLength })
  let arena := setChildOf arena splitIdx
    (pyIndex text ((getNode arena nextIdx).start)) nextIdx
  let arena :=
    match st.lastNewNode with
    | some ln => setSuffixLinkOf arena ln splitIdx
    | none => arena
  { st with arena := arena, lastNewNode := some splitIdx }

/-- Outcome of one iteration of the inner `while` loop: `breakLoop` models
the Rule-1 `break` of line 60 and `continueLoop` everything else. -/
inductive StepResult where
  | breakLoop (st : BuildState)
  | continueLoop (st : BuildState)

/-- One iteration of `while remainder > 0` (lines 34–80, the guard apart),
during phase `i`: adjust the active edge when `active_length == 0`, then
dispatch on the three extension rules.  After a Rule-2 extension
(`ruleNewLeaf`/`ruleSplit`), lines 74–80 run as `stepAfterRule`. -/
def loopIter (text : List Char) (n i : Nat) (st0 : BuildState) : StepResult :=
  let st := if st0.activeLength = 0 then { st0 with activeEdge := (i : Int) } else st0
  let edgeChar := pyIndex text st.activeEdge
  match lookupChild (getNode st.arena st.activeNode).children edgeChar with
  | none => .continueLoop (stepAfterRule i (ruleNewLeaf i n edgeChar st))
  | some nextIdx =>
      let nextNode := getNode st.arena nextIdx
      let el := nextNode.end_ - nextNode.start
      if st.activeLength ≥ el then
        -- lines 48–52: walk down and `continue`
        .continueLoop { st with activeEdge := st.activeEdge + el,
                                activeLength := st.activeLength - el,
                                activeNode := nextIdx }
      else if pyIndex text (nextNode.start + st.activeLength) = pyIndex text (i : Int) then
        .breakLoop (ruleMatch st)
      else
        .continueLoop (stepAfterRule i (ruleSplit text i n edgeChar nextIdx st))

/-- The loop `while remainder > 0` (lines 33–80), one phase `i`, with fuel;
`none` means the fuel ran out.  Each Python loop iteration (including
`continue`) consumes one unit of fuel. -/
def extendLoop (text : List Char) (n : Nat) (i : Nat) :
    Nat → BuildState → Option BuildState
  | 0, _ => none
  | fuel + 1, st =>
    if st.remainder ≤ 0 then some st
    else
      match loopIter text n i st with
      | .breakLoop st' => some st'
      | .continueLoop st' => extendLoop text n i fuel st'

/-- Fuel sufficient for one phase of the inner loop (justified by
`extendLoop` termination reasoning; generous). -/
def buildFuel (n : Nat) : Nat := 4 * (n + 2) * (n + 2)

/-- The initial build state: a fresh arena holding only the root, with the
active variables of lines 22–26. -/
def initState : BuildState := ⟨#[rootNode], 0, -1, 0, 0, none⟩

/-- `build_suffix_tree` run on `text` (already sentinel-terminated):
the outer `for i in range(n)` loop. -/
def buildOnText (text : List Char) : Option BuildState :=
  let n := text.length
  (List.range n).foldl
    (fun acc i => acc.bind (fun st =>
      extendLoop text n i (buildFuel n)
        { st with remainder := st.remainder + 1, lastNewNode := none }))
    (some initState)

/-- `SuffixTree.__init__`: append the sentinel `'$'` and build.  Returns the
final arena (`none` only on fuel exhaustion, a modelling artifact). -/
def build_suffix_tree (s : List Char) : Option (Array SuffixTreeNode) :=
  (buildOnText (s ++ ['$'])).map (·.arena)

/-- Lines 90–95 of `find_repeats`: the ranges recorded at one branching
node, iterating over its children in order; `curLen` is
`len(current_string)`. -/
def recordPairs (arena : Array SuffixTreeNode) (curLen : Nat) :
    List (Char × Nat) → List (Int × Int)
  | [] => []
  | (_, cidx) :: rest =>
      let child := getNode arena cidx
      (if child.end_ - child.start > 0 then
        let startPos := child.start - (curLen : Int)
        let endPos := child.start + (child.end_ - child.start) - 1
        if endPos > startPos then [(startPos, endPos)] else []
      else []) ++ recordPairs arena curLen rest

/-- One recording event of `dfs` (line 95), instrumented with the length of
`current_string` and the child's `start`/`end` at that moment. -/
structure RepeatEvent where
  pathLen : Nat
  childStart : Int
  childEnd : Int
  pair : Int × Int
deriving Repr, DecidableEq

/-- `recordPairs`, instrumented: the same guards and the same appended
range, each paired with the context (path length, child start/end). -/
def recordEvents (arena : Array SuffixTreeNode) (curLen : Nat) :
    List (Char × Nat) → List RepeatEvent
  | [] => []
  | (_, cidx) :: rest =>
      let child := getNode arena cidx
      (if child.end_ - child.start > 0 then
        let startPos := child.start - (curLen : Int)
        let endPos := child.start + (child.end_ - child.start) - 1
        if endPos > startPos then
          [⟨curLen, child.start, child.end_, (startPos, endPos)⟩]
        else []
      else []) ++ recordEvents arena curLen rest

/-- The recursive `dfs` of `find_repeats` (lines 86–98), with fuel bounding
the recursion depth: record ranges at branching non-root nodes, then
recurse into each child (in order) with the edge label appended to
`current_string`. -/
def dfs (text : List Char) (arena : Array SuffixTreeNode) :
    Nat → Nat → List Char → List (Int × Int)
  | 0, _, _ => []
  | fuel + 1, idx, cur =>
      let node := getNode arena idx
      (if 1 < node.children.length ∧ idx ≠ 0 then
        recordPairs arena cur.length node.children
      else []) ++
      node.children.foldr
        (fun ch acc =>
          let child := getNode arena ch.2
          let el := child.end_ - child.start
          dfs text arena fuel ch.2
            (cur ++ pySlice text child.start (child.start + el)) ++ acc)
        []

/-- `dfs`, instrumented to emit `RepeatEvent`s instead of bare pairs. -/
def dfsEvents (text : List Char) (arena : Array SuffixTreeNode) :
    Nat → Nat → List Char → List RepeatEvent
  | 0, _, _ => []
  | fuel + 1, idx, cur =>
      let node := getNode arena idx
      (if 1 < node.children.length ∧ idx ≠ 0 then
        recordEvents arena cur.length node.children
      else []) ++
      node.children.foldr
        (fun ch acc =>
          let child := getNode arena ch.2
          let el := child.end_ - child.start
          dfsEvents text arena fuel ch.2
            (cur ++ pySlice text child.start (child.start + el)) ++ acc)
        []

/-- Auxiliary for `dedupPairs`: drop elements already seen. -/
def dedupPairsAux : List (Int × Int) → List (Int × Int) → List (Int × Int)
  | [], _ => []
  | x :: t, seen => if x ∈ seen then dedupPairsAux t seen else x :: dedupPairsAux t (x :: seen)

/-- Python `list(set(...))`: keep one copy of each pair (the first
occurrence; the resulting collection of distinct elements is what `set`
produces, and the subsequent sort makes the traversal order irrelevant). -/
def dedupPairs (l : List (Int × Int)) : List (Int × Int) :=
  dedupPairsAux l []

/-- Python's ascending tuple order on `(start, end)` pairs, as a Boolean. -/
def pairLeb (p q : Int × Int) : Bool :=
  p.1 < q.1 || (p.1 = q.1 && p.2 ≤ q.2)

/-- Insertion into a `pairLeb`-sorted list. -/
def insertPair (x : Int × Int) : List (Int × Int) → List (Int × Int)
  | [] => [x]
  | y :: t => if pairLeb x y then x :: y :: t else y :: insertPair x t

/-- Python `repeats.sort()`: ascending lexicographic sort of the pairs. -/
def sortPairs (l : List (Int × Int)) : List (Int × Int) :=
  l.foldr insertPair []

/-- `find_repeats` (lines 82–104): build the tree for `s + '$'`, run `dfs`
from the root, dedup and sort, and return `none` for an empty result.
The outer `Option` is the build-fuel artifact; the inner `Option` is the
Python `None`-vs-list result. -/
def find_repeats (s : List Char) : Option (Option (List (Int × Int))) :=
  (build_suffix_tree s).map (fun arena =>
    let text := s ++ ['$']
    let repeats := sortPairs (dedupPairs (dfs text arena (arena.size + 1) 0 []))
    if repeats.isEmpty then none else some repeats)

/-- A valid DNA sequence: every symbol is in {A, C, G, T}. -/
def validDNA (s : List Char) : Prop :=
  ∀ c ∈ s, c = 'A' ∨ c = 'C' ∨ c = 'G' ∨ c = 'T'

instance : DecidablePred validDNA := fun s => by
  unfold validDNA; infer_instance

/-- Modelled from the spec: the brute-force oracle of §8 ("a brute-force
O(n²) substring-comparison enumeration") is not part of the repository's
sources, so it is reconstructed here from the spec's words.  `occursAt s w p`
holds when `w` occurs in `s` at position `p`. -/
def occursAt (s w : List Char) (p : Nat) : Bool :=
  (s.drop p).take w.length == w

/-- Modelled from the spec: the number of positions of `s` at which `w`
occurs. -/
def occCount (s w : List Char) : Nat :=
  ((List.range (s.length + 1)).filter (occursAt s w)).length

/-- The substring `s[i..j]`, inclusive on both ends. -/
def substringAt (s : List Char) (i j : Nat) : List Char :=
  (s.take (j + 1)).drop i

/-- Modelled from the spec: the occurrence range `(i, j)` carries a substring
of `s` "occurring ≥ 2 times". -/
def isRepeated (s : List Char) (i j : Nat) : Bool :=
  2 ≤ occCount s (substringAt s i j)

/-- Modelled from the spec: restriction of the brute-force result "to
maximal non-extendable occurrences": the occurrence cannot be extended one
symbol to the left or right while still carrying a repeated substring. -/
def isMaximalRepeat (s : List Char) (i j : Nat) : Bool :=
  isRepeated s i j && !(0 < i && isRepeated s (i - 1) j)
    && !(j + 1 < s.length && isRepeated s i (j + 1))

/-- Modelled from the spec: the §8 brute-force enumeration of all maximal
non-extendable occurrences of substrings of `s` occurring at least twice,
listed in ascending order. -/
def bruteForceRepeats (s : List Char) : List (Int × Int) :=
  (List.range s.length).flatMap (fun i =>
    (List.range s.length).filterMap (fun j =>
      if i ≤ j ∧ isMaximalRepeat s i j then some ((i : Int), (j : Int)) else none))

/-! Invariants used to prove that `build_suffix_tree` terminates: every
child index stored in the arena is in range, every suffix link is in
range, and the parent→child relation is acyclic, witnessed by a rank
function that strictly decreases along child edges. -/

/-- Every child index stored in the arena is a valid arena index. -/
def ChildrenBounded (a : Array SuffixTreeNode) : Prop :=
  ∀ j : Nat, ∀ ch ∈ (getNode a j).children, ch.2 < a.size

/-- Every suffix link stored in the arena is a valid arena index. -/
def LinksBounded (a : Array SuffixTreeNode) : Prop :=
  ∀ j v : Nat, (getNode a j).suffixLink = some v → v < a.size

/-- `r` strictly decreases along every parent→child edge of the arena:
a witness that the children relation is acyclic. -/
def EdgeDecreasing (a : Array SuffixTreeNode) (r : Nat → Nat) : Prop :=
  ∀ j : Nat, ∀ ch ∈ (getNode a j).children, r ch.2 < r j

/-- Canonical rank bounded by the arena size: the number of arena indices
of strictly smaller `r`-value. -/
def rankOf (a : Array SuffixTreeNode) (r : Nat → Nat) (j : Nat) : Nat :=
  ((Finset.range a.size).filter (fun k => r k < r j)).card

/-- The components of the build state that survive the active-edge
adjustment at the top of the loop body (line 34–35). -/
def CoreEq (st1 st : BuildState) : Prop :=
  st1.arena = st.arena ∧ st1.activeNode = st.activeNode ∧
  st1.remainder = st.remainder ∧ st1.lastNewNode = st.lastNewNode

/-- Loop invariant of the inner `while` loop during phase `i`. -/
def LoopInv (i : Nat) (st : BuildState) : Prop :=
  st.activeNode < st.arena.size ∧ ChildrenBounded st.arena ∧
  LinksBounded st.arena ∧ 0 ≤ st.remainder ∧
  st.arena.size + 2 * st.remainder.toNat ≤ 2 * i + 3

end DNARepeatFinder

namespace DNARepeatFinder

/-! ## Supporting lemmas -/

/-- Every range recorded at a branching node (lines 91–95) satisfies
`start < end`, because of the `end_pos > start_pos` guard. -/
theorem recordPairs_fst_lt_snd {arena : Array SuffixTreeNode} {L : Nat}
    {children : List (Char × Nat)} {p : Int × Int}
    (h : p ∈ recordPairs arena L children) : p.1 < p.2 := by
  induction children with
  | nil => simp [recordPairs] at h
  | cons ch rest ih =>
    obtain ⟨c, cidx⟩ := ch
    simp only [recordPairs] at h
    rcases List.mem_append.mp h with h | h
    · split at h
      · split at h
        next hgt =>
          rcases List.mem_singleton.mp h with rfl
          exact hgt
        · simp at h
      · simp at h
    · exact ih h

/-- Every range produced by `dfs` satisfies `start < end`. -/
theorem dfs_fst_lt_snd (text : List Char) (arena : Array SuffixTreeNode) :
    ∀ (fuel idx : Nat) (cur : List Char) (p : Int × Int),
      p ∈ dfs text arena fuel idx cur → p.1 < p.2 := by
  intro fuel
  induction fuel with
  | zero => intro idx cur p h; simp [dfs] at h
  | succ f ih =>
    intro idx cur p h
    simp only [dfs] at h
    rcases List.mem_append.mp h with h | h
    · split at h
      · exact recordPairs_fst_lt_snd h
      · simp at h
    · revert h
      induction (getNode arena idx).children with
      | nil => intro h; simp at h
      | cons ch rest ihL =>
        intro h
        simp only [List.foldr] at h
        rcases List.mem_append.mp h with h | h
        · exact ih _ _ _ h
        · exact ihL h

/-- Elements surviving `dedupPairsAux` come from the input list. -/
theorem dedupPairsAux_subset :
    ∀ (l seen : List (Int × Int)) (p : Int × Int),
      p ∈ dedupPairsAux l seen → p ∈ l := by
  intro l
  induction l with
  | nil => intro seen p h; simp [dedupPairsAux] at h
  | cons x t ih =>
    intro seen p h
    simp only [dedupPairsAux] at h
    split at h
    · exact List.mem_cons_of_mem _ (ih _ _ h)
    · rcases List.mem_cons.mp h with rfl | h
      · exact List.mem_cons_self _ _
      · exact List.mem_cons_of_mem _ (ih _ _ h)

/-- Nothing surviving `dedupPairsAux` was already seen. -/
theorem dedupPairsAux_not_mem_seen :
    ∀ (l seen : List (Int × Int)) (p : Int × Int),
      p ∈ dedupPairsAux l seen → p ∉ seen := by
  intro l
  induction l with
  | nil => intro seen p h; simp [dedupPairsAux] at h
  | cons x t ih =>
    intro seen p h
    simp only [dedupPairsAux] at h
    split at h
    · exact ih _ _ h
    next hx =>
      rcases List.mem_cons.mp h with rfl | h
      · exact hx
      · intro hs
        exact ih _ _ h (List.mem_cons_of_mem _ hs)

/-- `dedupPairsAux` produces a list without duplicates. -/
theorem dedupPairsAux_nodup :
    ∀ (l seen : List (Int × Int)), (dedupPairsAux l seen).Nodup := by
  intro l
  induction l with
  | nil => intro seen; simp [dedupPairsAux]
  | cons x t ih =>
    intro seen
    simp only [dedupPairsAux]
    split
    · exact ih _
    · refine List.nodup_cons.mpr ⟨?_, ih _⟩
      intro hx
      exact dedupPairsAux_not_mem_seen _ _ _ hx (List.mem_cons_self _ _)

/-- `dedupPairs` preserves membership. -/
theorem dedupPairs_subset {l : List (Int × Int)} {p : Int × Int}
    (h : p ∈ dedupPairs l) : p ∈ l :=
  dedupPairsAux_subset l [] p h

/-- `dedupPairs` produces a list without duplicates. -/
theorem dedupPairs_nodup (l : List (Int × Int)) : (dedupPairs l).Nodup :=
  dedupPairsAux_nodup l []

/-- The comparison `pairLeb` is total. -/
theorem pairLeb_total (p q : Int × Int) :
    pairLeb p q = true ∨ pairLeb q p = true := by
  simp only [pairLeb, Bool.or_eq_true, Bool.and_eq_true, decide_eq_true_eq]
  omega

/-- The comparison `pairLeb` is transitive. -/
theorem pairLeb_trans {p q r : Int × Int} (h1 : pairLeb p q = true)
    (h2 : pairLeb q r = true) : pairLeb p r = true := by
  simp only [pairLeb, Bool.or_eq_true, Bool.and_eq_true, decide_eq_true_eq] at *
  omega

/-- Failing `pairLeb` one way implies it the other way. -/
theorem pairLeb_of_not {p q : Int × Int} (h : ¬ pairLeb p q = true) :
    pairLeb q p = true := by
  rcases pairLeb_total p q with h' | h'
  · exact absurd h' h
  · exact h'

/-- Membership in `insertPair`. -/
theorem mem_insertPair {x p : Int × Int} :
    ∀ {l : List (Int × Int)}, p ∈ insertPair x l ↔ p = x ∨ p ∈ l := by
  intro l
  induction l with
  | nil => simp [insertPair]
  | cons y t ih =>
    simp only [insertPair]
    split
    · simp
    · simp only [List.mem_cons, ih]
      tauto

/-- `insertPair` permutes the inserted element into the list. -/
theorem insertPair_perm (x : Int × Int) :
    ∀ (l : List (Int × Int)), (insertPair x l).Perm (x :: l) := by
  intro l
  induction l with
  | nil => simp [insertPair]
  | cons y t ih =>
    simp only [insertPair]
    split
    · exact List.Perm.refl _
    · exact List.Perm.trans (List.Perm.cons y ih) (List.Perm.swap x y t)

/-- `insertPair` preserves sortedness with respect to `pairLeb`. -/
theorem insertPair_pairwise {x : Int × Int} :
    ∀ {l : List (Int × Int)},
      l.Pairwise (fun a b => pairLeb a b = true) →
      (insertPair x l).Pairwise (fun a b => pairLeb a b = true) := by
  intro l
  induction l with
  | nil => intro _; simp [insertPair]
  | cons y t ih =>
    intro hl
    rcases List.pairwise_cons.mp hl with ⟨hy, ht⟩
    simp only [insertPair]
    split
    next hxy =>
      refine List.pairwise_cons.mpr ⟨?_, hl⟩
      intro z hz
      rcases List.mem_cons.mp hz with rfl | hz
      · exact hxy
      · exact pairLeb_trans hxy (hy z hz)
    next hxy =>
      refine List.pairwise_cons.mpr ⟨?_, ih ht⟩
      intro z hz
      rcases mem_insertPair.mp hz with rfl | hz
      · exact pairLeb_of_not hxy
      · exact hy z hz

/-- `sortPairs` permutes its input. -/
theorem sortPairs_perm : ∀ l : List (Int × Int), (sortPairs l).Perm l := by
  intro l
  induction l with
  | nil => simp [sortPairs]
  | cons x t ih =>
    exact List.Perm.trans (insertPair_perm x (sortPairs t)) (List.Perm.cons x ih)

/-- `sortPairs` sorts with respect to `pairLeb`. -/
theorem sortPairs_pairwise : ∀ l : List (Int × Int),
    (sortPairs l).Pairwise (fun a b => pairLeb a b = true) := by
  intro l
  induction l with
  | nil => simp [sortPairs]
  | cons x t ih => exact insertPair_pairwise ih

/-- A non-strict `pairLeb` between distinct pairs is strict lexicographic. -/
theorem pairLeb_ne_lt {a b : Int × Int} (h1 : pairLeb a b = true) (h2 : a ≠ b) :
    a.1 < b.1 ∨ (a.1 = b.1 ∧ a.2 < b.2) := by
  simp only [pairLeb, Bool.or_eq_true, Bool.and_eq_true, decide_eq_true_eq] at h1
  have hne : ¬ (a.1 = b.1 ∧ a.2 = b.2) := by
    intro ⟨u, v⟩
    exact h2 (Prod.ext u v)
  rcases h1 with h | ⟨h, h'⟩
  · exact Or.inl h
  · right
    refine ⟨h, lt_of_le_of_ne h' ?_⟩
    intro he
    exact hne ⟨h, he⟩

/-- Inversion for a `find_repeats` call that returned a list. -/
theorem find_repeats_some_some {s : List Char} {l : List (Int × Int)}
    (h : find_repeats s = some (some l)) :
    ∃ arena, build_suffix_tree s = some arena ∧
      l = sortPairs (dedupPairs (dfs (s ++ ['$']) arena (arena.size + 1) 0 [])) := by
  unfold find_repeats at h
  cases hb : build_suffix_tree s with
  | none => rw [hb] at h; simp at h
  | some arena =>
    rw [hb] at h
    simp only [Option.map_some'] at h
    refine ⟨arena, rfl, ?_⟩
    split at h
    · simp at h
    · exact (Option.some_inj.mp (Option.some_inj.mp h)).symm

end DNARepeatFinder

namespace DNARepeatFinder

/-- Every event recorded at a branching node carries the range
`(childStart - pathLen, childEnd - 1)`. -/
theorem recordEvents_pair_eq {arena : Array SuffixTreeNode} {L : Nat}
    {children : List (Char × Nat)} {ev : RepeatEvent}
    (h : ev ∈ recordEvents arena L children) :
    ev.pair = (ev.childStart - (ev.pathLen : Int), ev.childEnd - 1) := by
  induction children with
  | nil => simp [recordEvents] at h
  | cons ch rest ih =>
    obtain ⟨c, cidx⟩ := ch
    simp only [recordEvents] at h
    rcases List.mem_append.mp h with h | h
    · split at h
      · split at h
        · rcases List.mem_singleton.mp h with rfl
          refine Prod.ext rfl ?_
          ring
        · simp at h
      · simp at h
    · exact ih h

/-- The plain recording of lines 90–95 is the instrumented one with the
context fields dropped. -/
theorem recordPairs_eq_map_recordEvents (arena : Array SuffixTreeNode) (L : Nat) :
    ∀ children : List (Char × Nat),
      recordPairs arena L children = (recordEvents arena L children).map (·.pair) := by
  intro children
  induction children with
  | nil => simp [recordPairs, recordEvents]
  | cons ch rest ih =>
    obtain ⟨c, cidx⟩ := ch
    simp only [recordPairs, recordEvents, List.map_append, ih]
    congr 1
    split
    · split <;> simp
    · simp

/-- `dfs` is `dfsEvents` with the context fields dropped: the instrumented
traversal records exactly the ranges the plain one does. -/
theorem dfs_eq_map_dfsEvents (text : List Char) (arena : Array SuffixTreeNode) :
    ∀ (fuel idx : Nat) (cur : List Char),
      dfs text arena fuel idx cur = (dfsEvents text arena fuel idx cur).map (·.pair) := by
  intro fuel
  induction fuel with
  | zero => intro idx cur; simp [dfs, dfsEvents]
  | succ f ih =>
    intro idx cur
    simp only [dfs, dfsEvents, List.map_append]
    congr 1
    · split
      · exact recordPairs_eq_map_recordEvents arena cur.length _
      · simp
    · induction (getNode arena idx).children with
      | nil => simp
      | cons ch rest ihL =>
        simp only [List.foldr, List.map_append]
        rw [ih, ihL]

/-! ## Claim C1 -/

/-- C1, counterexample: for S = "AA" there is a recording event at a
branching node with accumulated path length L = 1 > 0 whose recorded range
is not `(b - L, (b - L) + L - 1)` (with `b` the child edge's start offset):
the claimed formula fails on the code. -/
theorem dfs_recorded_range_spec_formula_fails :
    ((build_suffix_tree ['A', 'A']).map (fun arena =>
      (dfsEvents ['A', 'A', '$'] arena (arena.size + 1) 0 []).all
        (fun ev => (ev.pathLen == 0) ||
          decide (ev.pair = (ev.childStart - (ev.pathLen : Int),
            ev.childStart - (ev.pathLen : Int) + (ev.pathLen : Int) - 1)))))
      = some false := by decide

/-- C1, amended: every occurrence range recorded by the `dfs` of
`find_repeats` for a descending child edge equals
`(b - L, e - 1)` where `b`/`e` are the child edge's start/end offsets and
`L` the accumulated path length — the end index comes from the child edge's
end offset, not from the repeated length. -/
theorem dfs_recorded_range_formula (text : List Char)
    (arena : Array SuffixTreeNode) (fuel idx : Nat) (cur : List Char)
    (ev : RepeatEvent) (h : ev ∈ dfsEvents text arena fuel idx cur) :
    ev.pair = (ev.childStart - (ev.pathLen : Int), ev.childEnd - 1) := by
  induction fuel generalizing idx cur with
  | zero => simp [dfsEvents] at h
  | succ f ih =>
    simp only [dfsEvents] at h
    rcases List.mem_append.mp h with h | h
    · split at h
      · exact recordEvents_pair_eq h
      · simp at h
    · revert h
      induction (getNode arena idx).children with
      | nil => intro h; simp at h
      | cons ch rest ihL =>
        intro h
        simp only [List.foldr] at h
        rcases List.mem_append.mp h with h | h
        · exact ih _ _ h
        · exact ihL h

/-- C1, witness: the amended formula evaluated on the event recorded for
the leaf child (start 2, end 3) of the branching "A" node of S = "AA". -/
theorem dfs_recorded_range_formula_witness :
    (⟨1, 2, 3, (1, 2)⟩ : RepeatEvent).pair =
      ((2 : Int) - ((1 : Nat) : Int), (3 : Int) - 1) :=
  dfs_recorded_range_formula ['A', 'A', '$']
    ((build_suffix_tree ['A', 'A']).getD #[])
    (((build_suffix_tree ['A', 'A']).getD #[]).size + 1) 0 []
    ⟨1, 2, 3, (1, 2)⟩ (by decide)

/-! ## Claim C2 -/

/-- C2 fails on the code: for S = "AA" the returned list is
[(0, 2), (1, 2)], and the end index 2 is not < |S| = 2 — the reported
ranges run past the end of the sequence (into the sentinel). -/
theorem find_repeats_out_of_bounds_AA :
    find_repeats ['A', 'A'] = some (some [(0, 2), (1, 2)]) ∧
    ¬ ((2 : Int) < ((['A', 'A'] : List Char).length : Int)) := by decide

/-! ## Claim C4 -/

/-- C4 fails on the code: for S = "AAAA" (|S| ≤ 12) the tree-derived set is
[(0,1), (0,2), (0,4), (1,4), (2,4), (3,4)] while the brute-force
enumeration restricted to maximal non-extendable occurrences is
[(0,2), (1,3)]; the two sets differ. -/
theorem find_repeats_differs_from_brute_force_AAAA :
    find_repeats ['A', 'A', 'A', 'A'] =
      some (some [(0, 1), (0, 2), (0, 4), (1, 4), (2, 4), (3, 4)]) ∧
    bruteForceRepeats ['A', 'A', 'A', 'A'] = [(0, 2), (1, 3)] ∧
    ((0, 4) : Int × Int) ∈
      [((0 : Int), (1 : Int)), (0, 2), (0, 4), (1, 4), (2, 4), (3, 4)] ∧
    ((0, 4) : Int × Int) ∉ [((0 : Int), (2 : Int)), (1, 3)] := by decide

/-! ## Claim C5 -/

/-- C5 fails on the code: for S = "ACGTACGT" the returned list is
[(0,8), (1,8), ..., (7,8)]; it contains neither (0, 3) nor (4, 7). -/
theorem find_repeats_ACGTACGT_misses_expected_ranges :
    find_repeats ['A', 'C', 'G', 'T', 'A', 'C', 'G', 'T'] =
      some (some [(0, 8), (1, 8), (2, 8), (3, 8), (4, 8), (5, 8), (6, 8), (7, 8)]) ∧
    ((0, 3) : Int × Int) ∉
      [((0 : Int), (8 : Int)), (1, 8), (2, 8), (3, 8), (4, 8), (5, 8), (6, 8), (7, 8)] ∧
    ((4, 7) : Int × Int) ∉
      [((0 : Int), (8 : Int)), (1, 8), (2, 8), (3, 8), (4, 8), (5, 8), (6, 8), (7, 8)] := by
  decide

/-! ## Claim C7 -/

/-- C7: for every valid sequence shorter than two symbols, `find_repeats`
returns the absent result (`None`). -/
theorem find_repeats_short_none (s : List Char) (hlen : s.length < 2)
    (hv : validDNA s) : find_repeats s = some none := by
  cases s with
  | nil => decide
  | cons c t =>
    cases t with
    | nil =>
      rcases hv c (List.mem_singleton.mpr rfl) with h | h | h | h <;>
        subst h <;> decide
    | cons d t' =>
      simp only [List.length_cons] at hlen
      omega

/-- C7, witness: the empty sequence. -/
theorem find_repeats_short_none_witness : find_repeats [] = some none :=
  find_repeats_short_none [] (by decide) (by intro c hc; simp at hc)

/-! ## Claim C8 -/

/-- C8: whenever `find_repeats` returns a list, it is strictly ascending in
the lexicographic order on (start, end) — so it is sorted and contains no
duplicate pair. -/
theorem find_repeats_sorted_nodup (s : List Char) (_hv : validDNA s)
    (l : List (Int × Int)) (h : find_repeats s = some (some l)) :
    l.Pairwise (fun p q => p.1 < q.1 ∨ (p.1 = q.1 ∧ p.2 < q.2)) := by
  obtain ⟨arena, _, rfl⟩ := find_repeats_some_some h
  have hnd : (sortPairs (dedupPairs (dfs (s ++ ['$']) arena (arena.size + 1) 0 []))).Nodup :=
    (List.Perm.nodup_iff (sortPairs_perm _)).mpr (dedupPairs_nodup _)
  have hsorted := sortPairs_pairwise
    (dedupPairs (dfs (s ++ ['$']) arena (arena.size + 1) 0 []))
  have := List.Pairwise.and hsorted hnd
  exact this.imp (fun hab => pairLeb_ne_lt hab.1 hab.2)

/-- C8, witness: evaluated at S = "AA", whose result list is
[(0, 2), (1, 2)]. -/
theorem find_repeats_sorted_nodup_witness :
    ([((0 : Int), (2 : Int)), (1, 2)]).Pairwise
      (fun p q => p.1 < q.1 ∨ (p.1 = q.1 ∧ p.2 < q.2)) :=
  find_repeats_sorted_nodup ['A', 'A'] (by decide) [(0, 2), (1, 2)] (by decide)

/-! ## Claim C9 -/

/-- C9: every range reported by `find_repeats` spans at least two symbols:
`start + 1 ≤ end`. -/
theorem find_repeats_range_min_length_two (s : List Char) (_hv : validDNA s)
    (l : List (Int × Int)) (h : find_repeats s = some (some l)) :
    ∀ p ∈ l, p.1 + 1 ≤ p.2 := by
  obtain ⟨arena, _, rfl⟩ := find_repeats_some_some h
  intro p hp
  have hp1 : p ∈ dedupPairs (dfs (s ++ ['$']) arena (arena.size + 1) 0 []) :=
    (List.Perm.mem_iff (sortPairs_perm _)).mp hp
  have hp2 := dedupPairs_subset hp1
  have := dfs_fst_lt_snd (s ++ ['$']) arena _ _ _ _ hp2
  omega

/-- C9, witness: evaluated at S = "AA" and the reported range (0, 2). -/
theorem find_repeats_range_min_length_two_witness : (0 : Int) + 1 ≤ (2 : Int) :=
  find_repeats_range_min_length_two ['A', 'A'] (by decide) [(0, 2), (1, 2)]
    (by decide) (0, 2) (by decide)

/-! ## Claim C10 -/

/-- C10: `find_repeats` never returns an empty list: the result is `None`
or a non-empty list. -/
theorem find_repeats_not_some_empty (s : List Char)
    (r : Option (List (Int × Int))) (h : find_repeats s = some r) :
    r = none ∨ ∃ l, r = some l ∧ l ≠ [] := by
  unfold find_repeats at h
  cases hb : build_suffix_tree s with
  | none => rw [hb] at h; simp at h
  | some arena =>
    rw [hb] at h
    simp only [Option.map_some'] at h
    rcases Option.some_inj.mp h with rfl
    split
    next hemp => exact Or.inl rfl
    next hemp =>
      refine Or.inr ⟨_, rfl, ?_⟩
      intro hnil
      exact hemp (by rw [hnil]; rfl)

/-- C10, witness: evaluated at S = "AA". -/
theorem find_repeats_not_some_empty_witness :
    (some [((0 : Int), (2 : Int)), (1, 2)] : Option (List (Int × Int))) = none ∨
    ∃ l, (some [((0 : Int), (2 : Int)), (1, 2)] : Option (List (Int × Int))) = some l ∧
      l ≠ [] :=
  find_repeats_not_some_empty ['A', 'A'] (some [(0, 2), (1, 2)]) (by decide)

end DNARepeatFinder

namespace DNARepeatFinder

theorem getNode_eq_dite (a : Array SuffixTreeNode) (i : Nat) :
    getNode a i = if h : i < a.size then a[i] else rootNode := rfl

theorem getNode_push (a : Array SuffixTreeNode) (x : SuffixTreeNode) (j : Nat) :
    getNode (a.push x) j = if j = a.size then x else getNode a j := by
  rw [getNode_eq_dite, getNode_eq_dite]
  by_cases hj : j < (a.push x).size
  · rw [dif_pos hj, Array.getElem_push]
    have hj' : j < a.size + 1 := by rw [Array.size_push] at hj; exact hj
    by_cases h2 : j < a.size
    · rw [dif_pos h2, if_neg (by omega), dif_pos h2]
    · rw [dif_neg h2, if_pos (by omega)]
  · have h2 : ¬ j < a.size := by rw [Array.size_push] at hj; omega
    rw [dif_neg hj, dif_neg h2, if_neg (by rw [Array.size_push] at hj; omega)]

theorem size_modifyNode (a : Array SuffixTreeNode) (i : Nat)
    (f : SuffixTreeNode → SuffixTreeNode) : (modifyNode a i f).size = a.size := by
  unfold modifyNode Array.setD
  split
  · exact Array.size_set a _ _
  · rfl

theorem getNode_set (a : Array SuffixTreeNode) (i : Nat) (hi : i < a.size)
    (x : SuffixTreeNode) (j : Nat) :
    getNode (a.set ⟨i, hi⟩ x) j = if j = i then x else getNode a j := by
  have hsz := Array.size_set a ⟨i, hi⟩ x
  rw [getNode_eq_dite, getNode_eq_dite]
  by_cases hj : j < a.size
  · rw [dif_pos (by omega), dif_pos hj, Array.getElem_set]
    by_cases hij : i = j
    · rw [if_pos hij, if_pos hij.symm]
    · rw [if_neg hij, if_neg (fun h => hij h.symm)]
  · rw [dif_neg (by omega), dif_neg hj, if_neg (fun h => hj (by rw [h]; exact hi))]

theorem getNode_modifyNode (a : Array SuffixTreeNode) (i : Nat)
    (f : SuffixTreeNode → SuffixTreeNode) (j : Nat) :
    getNode (modifyNode a i f) j =
      if j = i ∧ i < a.size then f (getNode a i) else getNode a j := by
  unfold modifyNode Array.setD
  by_cases hi : i < a.size
  · rw [dif_pos hi, getNode_set a i hi]
    by_cases h : j = i
    · rw [if_pos h, if_pos ⟨h, hi⟩]
    · rw [if_neg h, if_neg (fun hc => h hc.1)]
  · rw [dif_neg hi, if_neg (fun hc => hi hc.2)]

theorem size_setChildOf (a : Array SuffixTreeNode) (idx : Nat) (c : Char) (v : Nat) :
    (setChildOf a idx c v).size = a.size := size_modifyNode a idx _

theorem size_setSuffixLinkOf (a : Array SuffixTreeNode) (idx v : Nat) :
    (setSuffixLinkOf a idx v).size = a.size := size_modifyNode a idx _

theorem children_setChildOf (a : Array SuffixTreeNode) (idx : Nat) (c : Char)
    (v : Nat) (j : Nat) :
    (getNode (setChildOf a idx c v) j).children =
      if j = idx ∧ idx < a.size then setChildAssoc (getNode a idx).children c v
      else (getNode a j).children := by
  unfold setChildOf
  rw [getNode_modifyNode]
  by_cases h : j = idx ∧ idx < a.size
  · rw [if_pos h, if_pos h]
  · rw [if_neg h, if_neg h]

theorem suffixLink_setChildOf (a : Array SuffixTreeNode) (idx : Nat) (c : Char)
    (v : Nat) (j : Nat) :
    (getNode (setChildOf a idx c v) j).suffixLink = (getNode a j).suffixLink := by
  unfold setChildOf
  rw [getNode_modifyNode]
  by_cases h : j = idx ∧ idx < a.size
  · rw [if_pos h, h.1]
  · rw [if_neg h]

theorem children_setSuffixLinkOf (a : Array SuffixTreeNode) (idx v j : Nat) :
    (getNode (setSuffixLinkOf a idx v) j).children = (getNode a j).children := by
  unfold setSuffixLinkOf
  rw [getNode_modifyNode]
  by_cases h : j = idx ∧ idx < a.size
  · rw [if_pos h, h.1]
  · rw [if_neg h]

theorem suffixLink_setSuffixLinkOf (a : Array SuffixTreeNode) (idx v j : Nat) :
    (getNode (setSuffixLinkOf a idx v) j).suffixLink =
      if j = idx ∧ idx < a.size then some v else (getNode a j).suffixLink := by
  unfold setSuffixLinkOf
  rw [getNode_modifyNode]
  by_cases h : j = idx ∧ idx < a.size
  · rw [if_pos h, if_pos h]
  · rw [if_neg h, if_neg h]

theorem mem_setChildAssoc :
    ∀ {l : List (Char × Nat)} {c : Char} {v : Nat} {ch : Char × Nat},
      ch ∈ setChildAssoc l c v → ch = (c, v) ∨ ch ∈ l := by
  intro l
  induction l with
  | nil =>
    intro c v ch h
    exact Or.inl (List.mem_singleton.mp h)
  | cons hd t ih =>
    intro c v ch h
    obtain ⟨c', v'⟩ := hd
    simp only [setChildAssoc] at h
    split at h
    · rcases List.mem_cons.mp h with rfl | h
      · exact Or.inl rfl
      · exact Or.inr (List.mem_cons_of_mem _ h)
    · rcases List.mem_cons.mp h with rfl | h
      · exact Or.inr (List.mem_cons_self _ _)
      · rcases ih h with h | h
        · exact Or.inl h
        · exact Or.inr (List.mem_cons_of_mem _ h)

theorem lookupChild_mem :
    ∀ {l : List (Char × Nat)} {c : Char} {v : Nat},
      lookupChild l c = some v → (c, v) ∈ l := by
  intro l
  induction l with
  | nil => intro c v h; simp [lookupChild] at h
  | cons hd t ih =>
    intro c v h
    obtain ⟨c', v'⟩ := hd
    simp only [lookupChild] at h
    split at h
    next heq =>
      rcases Option.some_inj.mp h with rfl
      rw [heq]
      exact List.mem_cons_self _ _
    · exact List.mem_cons_of_mem _ (ih h)

theorem rankOf_lt_size {a : Array SuffixTreeNode} (r : Nat → Nat) {j : Nat}
    (hj : j < a.size) : rankOf a r j < a.size := by
  unfold rankOf
  have hsub : (Finset.range a.size).filter (fun k => r k < r j) ⊆
      (Finset.range a.size).erase j := by
    intro k hk
    rw [Finset.mem_filter, Finset.mem_range] at hk
    rw [Finset.mem_erase, Finset.mem_range]
    refine ⟨fun he => ?_, hk.1⟩
    subst he
    exact lt_irrefl _ hk.2
  have h1 := Finset.card_le_card hsub
  have h2 : ((Finset.range a.size).erase j).card = a.size - 1 := by
    rw [Finset.card_erase_of_mem (Finset.mem_range.mpr hj), Finset.card_range]
  omega

theorem rankOf_lt_of_edge {a : Array SuffixTreeNode} {r : Nat → Nat} {j : Nat}
    {ch : Char × Nat} (hcb : ChildrenBounded a) (hed : EdgeDecreasing a r)
    (hch : ch ∈ (getNode a j).children) :
    rankOf a r ch.2 < rankOf a r j := by
  have hr := hed j ch hch
  have hb := hcb j ch hch
  apply Finset.card_lt_card
  rw [Finset.ssubset_def]
  constructor
  · intro k hk
    rw [Finset.mem_filter] at *
    exact ⟨hk.1, lt_trans hk.2 hr⟩
  · intro hsup
    have hm : ch.2 ∈ (Finset.range a.size).filter (fun k => r k < r j) :=
      Finset.mem_filter.mpr ⟨Finset.mem_range.mpr hb, hr⟩
    have := hsup hm
    rw [Finset.mem_filter] at this
    exact lt_irrefl _ this.2

end DNARepeatFinder

namespace DNARepeatFinder

theorem getNode_oob {a : Array SuffixTreeNode} {j : Nat} (h : ¬ j < a.size) :
    getNode a j = rootNode := by
  rw [getNode_eq_dite, dif_neg h]

theorem ChildrenBounded_push {a : Array SuffixTreeNode} {x : SuffixTreeNode}
    (hcb : ChildrenBounded a) (hx : x.children = []) :
    ChildrenBounded (a.push x) := by
  intro j ch hch
  rw [getNode_push] at hch
  rw [Array.size_push]
  split at hch
  · rw [hx] at hch; simp at hch
  · exact Nat.lt_succ_of_lt (hcb j ch hch)

theorem LinksBounded_push {a : Array SuffixTreeNode} {x : SuffixTreeNode}
    (hlb : LinksBounded a) (hx : x.suffixLink = none) :
    LinksBounded (a.push x) := by
  intro j v h
  rw [getNode_push] at h
  rw [Array.size_push]
  split at h
  · rw [hx] at h; simp at h
  · exact Nat.lt_succ_of_lt (hlb j v h)

theorem EdgeDecreasing_push {a : Array SuffixTreeNode} {x : SuffixTreeNode}
    {r : Nat → Nat} (hed : EdgeDecreasing a r) (hx : x.children = []) :
    EdgeDecreasing (a.push x) r := by
  intro j ch hch
  rw [getNode_push] at hch
  split at hch
  · rw [hx] at hch; simp at hch
  · exact hed j ch hch

theorem EdgeDecreasing_of_rank_mono {a : Array SuffixTreeNode} {r r' : Nat → Nat}
    (hed : EdgeDecreasing a r) (hcb : ChildrenBounded a)
    (hmono : ∀ j k : Nat, j < a.size → k < a.size → r k < r j → r' k < r' j) :
    EdgeDecreasing a r' := by
  intro j ch hch
  by_cases hj : j < a.size
  · exact hmono j ch.2 hj (hcb j ch hch) (hed j ch hch)
  · rw [getNode_oob hj] at hch
    simp [rootNode] at hch

theorem ChildrenBounded_setChildOf {a : Array SuffixTreeNode} {idx : Nat}
    {c : Char} {v : Nat} (hcb : ChildrenBounded a) (hv : v < a.size) :
    ChildrenBounded (setChildOf a idx c v) := by
  intro j ch hch
  rw [size_setChildOf]
  rw [children_setChildOf] at hch
  split at hch
  next h =>
    rcases mem_setChildAssoc hch with rfl | hm
    · exact hv
    · exact hcb idx ch hm
  · exact hcb j ch hch

theorem LinksBounded_setChildOf {a : Array SuffixTreeNode} {idx : Nat}
    {c : Char} {v : Nat} (hlb : LinksBounded a) :
    LinksBounded (setChildOf a idx c v) := by
  intro j w h
  rw [suffixLink_setChildOf] at h
  rw [size_setChildOf]
  exact hlb j w h

theorem EdgeDecreasing_setChildOf {a : Array SuffixTreeNode} {idx : Nat}
    {c : Char} {v : Nat} {r : Nat → Nat} (hed : EdgeDecreasing a r)
    (hv : r v < r idx) : EdgeDecreasing (setChildOf a idx c v) r := by
  intro j ch hch
  rw [children_setChildOf] at hch
  split at hch
  next h =>
    rcases mem_setChildAssoc hch with rfl | hm
    · rw [h.1]; exact hv
    · rw [h.1]; exact hed idx ch hm
  · exact hed j ch hch

theorem ChildrenBounded_setSuffixLinkOf {a : Array SuffixTreeNode} {idx v : Nat}
    (hcb : ChildrenBounded a) : ChildrenBounded (setSuffixLinkOf a idx v) := by
  intro j ch hch
  rw [children_setSuffixLinkOf] at hch
  rw [size_setSuffixLinkOf]
  exact hcb j ch hch

theorem EdgeDecreasing_setSuffixLinkOf {a : Array SuffixTreeNode} {idx v : Nat}
    {r : Nat → Nat} (hed : EdgeDecreasing a r) :
    EdgeDecreasing (setSuffixLinkOf a idx v) r := by
  intro j ch hch
  rw [children_setSuffixLinkOf] at hch
  exact hed j ch hch

theorem LinksBounded_setSuffixLinkOf {a : Array SuffixTreeNode} {idx v : Nat}
    (hlb : LinksBounded a) (hv : v < a.size) :
    LinksBounded (setSuffixLinkOf a idx v) := by
  intro j w h
  rw [suffixLink_setSuffixLinkOf] at h
  rw [size_setSuffixLinkOf]
  split at h
  · rcases Option.some_inj.mp h with rfl
    exact hv
  · exact hlb j w h

theorem ChildrenBounded_modifyNode {a : Array SuffixTreeNode} {i : Nat}
    {f : SuffixTreeNode → SuffixTreeNode} (hcb : ChildrenBounded a)
    (hf : ∀ nd, (f nd).children = nd.children) :
    ChildrenBounded (modifyNode a i f) := by
  intro j ch hch
  rw [getNode_modifyNode] at hch
  rw [size_modifyNode]
  split at hch
  next h =>
    rw [hf] at hch
    exact hcb i ch hch
  · exact hcb j ch hch

theorem LinksBounded_modifyNode {a : Array SuffixTreeNode} {i : Nat}
    {f : SuffixTreeNode → SuffixTreeNode} (hlb : LinksBounded a)
    (hf : ∀ nd, (f nd).suffixLink = nd.suffixLink) :
    LinksBounded (modifyNode a i f) := by
  intro j w h
  rw [getNode_modifyNode] at h
  rw [size_modifyNode]
  split at h
  next hc =>
    rw [hf] at h
    exact hlb i w h
  · exact hlb j w h

theorem EdgeDecreasing_modifyNode {a : Array SuffixTreeNode} {i : Nat}
    {f : SuffixTreeNode → SuffixTreeNode} {r : Nat → Nat}
    (hed : EdgeDecreasing a r) (hf : ∀ nd, (f nd).children = nd.children) :
    EdgeDecreasing (modifyNode a i f) r := by
  intro j ch hch
  rw [getNode_modifyNode] at hch
  split at hch
  next h =>
    rw [hf] at hch
    rw [h.1]
    exact hed i ch hch
  · exact hed j ch hch

end DNARepeatFinder

namespace DNARepeatFinder

theorem stepAfterRule_arena (i : Nat) (st : BuildState) :
    (stepAfterRule i st).arena = st.arena := by
  unfold stepAfterRule
  dsimp only
  split <;> rfl

theorem stepAfterRule_remainder (i : Nat) (st : BuildState) :
    (stepAfterRule i st).remainder = st.remainder - 1 := by
  unfold stepAfterRule
  dsimp only
  split <;> rfl

theorem stepAfterRule_lastNewNode (i : Nat) (st : BuildState) :
    (stepAfterRule i st).lastNewNode = st.lastNewNode := by
  unfold stepAfterRule
  dsimp only
  split <;> rfl

theorem stepAfterRule_activeNode_lt (i : Nat) (st : BuildState)
    (hlb : LinksBounded st.arena) (hsz : 0 < st.arena.size)
    (hact : st.activeNode < st.arena.size) :
    (stepAfterRule i st).activeNode < st.arena.size := by
  unfold stepAfterRule
  dsimp only
  split
  · exact hact
  · cases hln : (getNode st.arena st.activeNode).suffixLink with
    | none => simpa [hln] using hsz
    | some v => simpa [hln] using hlb st.activeNode v hln

theorem ruleNewLeaf_activeNode (i n : Nat) (c : Char) (st : BuildState) :
    (ruleNewLeaf i n c st).activeNode = st.activeNode := by
  unfold ruleNewLeaf
  cases st.lastNewNode <;> rfl

theorem ruleNewLeaf_remainder (i n : Nat) (c : Char) (st : BuildState) :
    (ruleNewLeaf i n c st).remainder = st.remainder := by
  unfold ruleNewLeaf
  cases st.lastNewNode <;> rfl

theorem ruleNewLeaf_size (i n : Nat) (c : Char) (st : BuildState) :
    (ruleNewLeaf i n c st).arena.size = st.arena.size + 1 := by
  unfold ruleNewLeaf
  cases st.lastNewNode <;>
    simp [size_setSuffixLinkOf, size_setChildOf, Array.size_push]

theorem ruleNewLeaf_inv (i n : Nat) (c : Char) (st : BuildState) (r : Nat → Nat)
    (hact : st.activeNode < st.arena.size)
    (hcb : ChildrenBounded st.arena) (hlb : LinksBounded st.arena)
    (hed : EdgeDecreasing st.arena r) :
    ChildrenBounded (ruleNewLeaf i n c st).arena ∧
    LinksBounded (ruleNewLeaf i n c st).arena ∧
    EdgeDecreasing (ruleNewLeaf i n c st).arena
      (fun k => if k = st.arena.size then 0 else r k + 1) := by
  have hed0 : EdgeDecreasing st.arena
      (fun k => if k = st.arena.size then 0 else r k + 1) := by
    refine EdgeDecreasing_of_rank_mono hed hcb ?_
    intro j k hj hk hr
    rw [if_neg (by omega), if_neg (by omega)]
    omega
  have hcb1 : ChildrenBounded (st.arena.push ⟨(i : Int), (n : Int), [], none⟩) :=
    ChildrenBounded_push hcb rfl
  have hlb1 : LinksBounded (st.arena.push ⟨(i : Int), (n : Int), [], none⟩) :=
    LinksBounded_push hlb rfl
  have hed1 : EdgeDecreasing (st.arena.push ⟨(i : Int), (n : Int), [], none⟩)
      (fun k => if k = st.arena.size then 0 else r k + 1) :=
    EdgeDecreasing_push hed0 rfl
  have hv : st.arena.size < (st.arena.push ⟨(i : Int), (n : Int), [], none⟩).size := by
    rw [Array.size_push]; omega
  have hrv : (fun k => if k = st.arena.size then 0 else r k + 1) st.arena.size <
      (fun k => if k = st.arena.size then 0 else r k + 1) st.activeNode := by
    dsimp only
    rw [if_pos rfl, if_neg (by omega : ¬ st.activeNode = st.arena.size)]
    omega
  have hcb2 : ChildrenBounded (setChildOf (st.arena.push ⟨(i : Int), (n : Int), [], none⟩)
      st.activeNode c st.arena.size) :=
    ChildrenBounded_setChildOf hcb1 hv
  have hlb2 : LinksBounded (setChildOf (st.arena.push ⟨(i : Int), (n : Int), [], none⟩)
      st.activeNode c st.arena.size) :=
    LinksBounded_setChildOf hlb1
  have hed2 : EdgeDecreasing (setChildOf (st.arena.push ⟨(i : Int), (n : Int), [], none⟩)
      st.activeNode c st.arena.size)
      (fun k => if k = st.arena.size then 0 else r k + 1) :=
    EdgeDecreasing_setChildOf hed1 hrv
  unfold ruleNewLeaf
  cases st.lastNewNode with
  | none => exact ⟨hcb2, hlb2, hed2⟩
  | some ln =>
    have hact2 : st.activeNode <
        (setChildOf (st.arena.push ⟨(i : Int), (n : Int), [], none⟩)
          st.activeNode c st.arena.size).size := by
      rw [size_setChildOf, Array.size_push]; omega
    exact ⟨ChildrenBounded_setSuffixLinkOf hcb2,
      LinksBounded_setSuffixLinkOf hlb2 hact2,
      EdgeDecreasing_setSuffixLinkOf hed2⟩

theorem ruleMatch_arena_size (st : BuildState) :
    (ruleMatch st).arena.size = st.arena.size := by
  unfold ruleMatch
  cases st.lastNewNode <;> simp [size_setSuffixLinkOf]

theorem ruleMatch_activeNode (st : BuildState) :
    (ruleMatch st).activeNode = st.activeNode := by
  unfold ruleMatch
  cases st.lastNewNode <;> rfl

theorem ruleMatch_remainder (st : BuildState) :
    (ruleMatch st).remainder = st.remainder := by
  unfold ruleMatch
  cases st.lastNewNode <;> rfl

theorem ruleMatch_inv (st : BuildState) (r : Nat → Nat)
    (hact : st.activeNode < st.arena.size)
    (hcb : ChildrenBounded st.arena) (hlb : LinksBounded st.arena)
    (hed : EdgeDecreasing st.arena r) :
    ChildrenBounded (ruleMatch st).arena ∧
    LinksBounded (ruleMatch st).arena ∧
    EdgeDecreasing (ruleMatch st).arena r := by
  unfold ruleMatch
  cases st.lastNewNode with
  | none => exact ⟨hcb, hlb, hed⟩
  | some ln =>
    exact ⟨ChildrenBounded_setSuffixLinkOf hcb,
      LinksBounded_setSuffixLinkOf hlb hact,
      EdgeDecreasing_setSuffixLinkOf hed⟩

end DNARepeatFinder

namespace DNARepeatFinder

theorem ruleSplit_activeNode (text : List Char) (i n : Nat) (c : Char)
    (nextIdx : Nat) (st : BuildState) :
    (ruleSplit text i n c nextIdx st).activeNode = st.activeNode := by
  unfold ruleSplit
  cases st.lastNewNode <;> rfl

theorem ruleSplit_remainder (text : List Char) (i n : Nat) (c : Char)
    (nextIdx : Nat) (st : BuildState) :
    (ruleSplit text i n c nextIdx st).remainder = st.remainder := by
  unfold ruleSplit
  cases st.lastNewNode <;> rfl

theorem ruleSplit_size (text : List Char) (i n : Nat) (c : Char)
    (nextIdx : Nat) (st : BuildState) :
    (ruleSplit text i n c nextIdx st).arena.size = st.arena.size + 2 := by
  unfold ruleSplit
  cases st.lastNewNode <;>
    simp [size_setSuffixLinkOf, size_setChildOf, size_modifyNode, Array.size_push]

theorem ruleSplit_inv (text : List Char) (i n : Nat) (c : Char) (nextIdx : Nat)
    (st : BuildState) (r : Nat → Nat)
    (hact : st.activeNode < st.arena.size) (hnlt : nextIdx < st.arena.size)
    (hrlt : r nextIdx < r st.activeNode)
    (hcb : ChildrenBounded st.arena) (hlb : LinksBounded st.arena)
    (hed : EdgeDecreasing st.arena r) :
    ChildrenBounded (ruleSplit text i n c nextIdx st).arena ∧
    LinksBounded (ruleSplit text i n c nextIdx st).arena ∧
    EdgeDecreasing (ruleSplit text i n c nextIdx st).arena
      (fun k => if k = st.arena.size + 1 then 0
        else if k = st.arena.size then 2 * r nextIdx + 3 else 2 * r k + 2) := by
  set r2 : Nat → Nat := fun k => if k = st.arena.size + 1 then 0
    else if k = st.arena.size then 2 * r nextIdx + 3 else 2 * r k + 2 with hr2
  have hr2sz : r2 st.arena.size = 2 * r nextIdx + 3 := by
    rw [hr2]; dsimp only; rw [if_neg (by omega), if_pos rfl]
  have hr2sz1 : r2 (st.arena.size + 1) = 0 := by
    rw [hr2]; dsimp only; rw [if_pos rfl]
  have hr2act : r2 st.activeNode = 2 * r st.activeNode + 2 := by
    rw [hr2]; dsimp only; rw [if_neg (by omega), if_neg (by omega)]
  have hr2next : r2 nextIdx = 2 * r nextIdx + 2 := by
    rw [hr2]; dsimp only; rw [if_neg (by omega), if_neg (by omega)]
  have hed0 : EdgeDecreasing st.arena r2 := by
    refine EdgeDecreasing_of_rank_mono hed hcb ?_
    intro j k hj hk hr
    rw [hr2]; dsimp only
    rw [if_neg (by omega), if_neg (by omega), if_neg (by omega), if_neg (by omega)]
    omega
  set A1 := st.arena.push ⟨(getNode st.arena nextIdx).start,
    (getNode st.arena nextIdx).start + st.activeLength, [], none⟩ with hA1
  set A2 := setChildOf A1 st.activeNode c st.arena.size with hA2
  set A3 := A2.push ⟨(i : Int), (n : Int), [], none⟩ with hA3
  set A4 := setChildOf A3 st.arena.size (pyIndex text (i : Int)) A2.size with hA4
  set A5 := modifyNode A4 nextIdx
    (fun nd => { nd with start := nd.start + st.activeLength }) with hA5
  set A6 := setChildOf A5 st.arena.size
    (pyIndex text ((getNode A5 nextIdx).start)) nextIdx with hA6
  have hsz1 : A1.size = st.arena.size + 1 := by rw [hA1, Array.size_push]
  have hsz2 : A2.size = st.arena.size + 1 := by rw [hA2, size_setChildOf, hsz1]
  have hsz3 : A3.size = st.arena.size + 2 := by rw [hA3, Array.size_push, hsz2]
  have hsz4 : A4.size = st.arena.size + 2 := by rw [hA4, size_setChildOf, hsz3]
  have hsz5 : A5.size = st.arena.size + 2 := by rw [hA5, size_modifyNode, hsz4]
  have hsz6 : A6.size = st.arena.size + 2 := by rw [hA6, size_setChildOf, hsz5]
  have hcb1 : ChildrenBounded A1 := ChildrenBounded_push hcb rfl
  have hlb1 : LinksBounded A1 := LinksBounded_push hlb rfl
  have hed1 : EdgeDecreasing A1 r2 := EdgeDecreasing_push hed0 rfl
  have hcb2 : ChildrenBounded A2 :=
    ChildrenBounded_setChildOf hcb1 (by rw [hsz1]; omega)
  have hlb2 : LinksBounded A2 := LinksBounded_setChildOf hlb1
  have hed2 : EdgeDecreasing A2 r2 :=
    EdgeDecreasing_setChildOf hed1 (by rw [hr2sz, hr2act]; omega)
  have hcb3 : ChildrenBounded A3 := ChildrenBounded_push hcb2 rfl
  have hlb3 : LinksBounded A3 := LinksBounded_push hlb2 rfl
  have hed3 : EdgeDecreasing A3 r2 := EdgeDecreasing_push hed2 rfl
  have hcb4 : ChildrenBounded A4 :=
    ChildrenBounded_setChildOf hcb3 (by rw [hsz2, hsz3]; omega)
  have hlb4 : LinksBounded A4 := LinksBounded_setChildOf hlb3
  have hed4 : EdgeDecreasing A4 r2 :=
    EdgeDecreasing_setChildOf hed3 (by rw [hsz2, hr2sz1, hr2sz]; omega)
  have hcb5 : ChildrenBounded A5 :=
    ChildrenBounded_modifyNode hcb4 (fun nd => rfl)
  have hlb5 : LinksBounded A5 := LinksBounded_modifyNode hlb4 (fun nd => rfl)
  have hed5 : EdgeDecreasing A5 r2 :=
    EdgeDecreasing_modifyNode hed4 (fun nd => rfl)
  have hcb6 : ChildrenBounded A6 :=
    ChildrenBounded_setChildOf hcb5 (by rw [hsz5]; omega)
  have hlb6 : LinksBounded A6 := LinksBounded_setChildOf hlb5
  have hed6 : EdgeDecreasing A6 r2 :=
    EdgeDecreasing_setChildOf hed5 (by rw [hr2next, hr2sz]; omega)
  unfold ruleSplit
  dsimp only
  cases st.lastNewNode with
  | none => exact ⟨hcb6, hlb6, hed6⟩
  | some ln =>
    exact ⟨ChildrenBounded_setSuffixLinkOf hcb6,
      LinksBounded_setSuffixLinkOf hlb6 (by rw [hsz6]; omega),
      EdgeDecreasing_setSuffixLinkOf hed6⟩

end DNARepeatFinder

namespace DNARepeatFinder

theorem loopIter_cases (text : List Char) (n i : Nat) (st : BuildState) :
    (∃ st1 c, CoreEq st1 st ∧
      loopIter text n i st = .continueLoop (stepAfterRule i (ruleNewLeaf i n c st1))) ∨
    (∃ st1 nextIdx el, CoreEq st1 st ∧
      (∃ c, lookupChild (getNode st.arena st.activeNode).children c = some nextIdx) ∧
      loopIter text n i st = .continueLoop { st1 with
        activeEdge := st1.activeEdge + el,
        activeLength := st1.activeLength - el,
        activeNode := nextIdx }) ∨
    (∃ st1, CoreEq st1 st ∧ loopIter text n i st = .breakLoop (ruleMatch st1)) ∨
    (∃ st1 c nextIdx, CoreEq st1 st ∧
      lookupChild (getNode st.arena st.activeNode).children c = some nextIdx ∧
      loopIter text n i st = .continueLoop
        (stepAfterRule i (ruleSplit text i n c nextIdx st1))) := by
  unfold loopIter
  by_cases h0 : st.activeLength = 0
  · rw [if_pos h0]
    dsimp only
    cases hlk : lookupChild (getNode st.arena st.activeNode).children (pyIndex text (i : Int)) with
    | none =>
      simp only [hlk]
      exact Or.inl ⟨{ st with activeEdge := (i : Int) }, pyIndex text (i : Int),
        ⟨rfl, rfl, rfl, rfl⟩, rfl⟩
    | some nextIdx =>
      simp only [hlk]
      split
      · exact Or.inr (Or.inl ⟨{ st with activeEdge := (i : Int) }, nextIdx, _,
          ⟨rfl, rfl, rfl, rfl⟩, ⟨pyIndex text (i : Int), hlk⟩, rfl⟩)
      · split
        · exact Or.inr (Or.inr (Or.inl ⟨{ st with activeEdge := (i : Int) },
            ⟨rfl, rfl, rfl, rfl⟩, rfl⟩))
        · exact Or.inr (Or.inr (Or.inr ⟨{ st with activeEdge := (i : Int) },
            pyIndex text (i : Int), nextIdx, ⟨rfl, rfl, rfl, rfl⟩, hlk, rfl⟩))
  · rw [if_neg h0]
    dsimp only
    cases hlk : lookupChild (getNode st.arena st.activeNode).children (pyIndex text st.activeEdge) with
    | none =>
      simp only [hlk]
      exact Or.inl ⟨st, pyIndex text st.activeEdge, ⟨rfl, rfl, rfl, rfl⟩, rfl⟩
    | some nextIdx =>
      simp only [hlk]
      split
      · exact Or.inr (Or.inl ⟨st, nextIdx, _, ⟨rfl, rfl, rfl, rfl⟩,
          ⟨pyIndex text st.activeEdge, hlk⟩, rfl⟩)
      · split
        · exact Or.inr (Or.inr (Or.inl ⟨st, ⟨rfl, rfl, rfl, rfl⟩, rfl⟩))
        · exact Or.inr (Or.inr (Or.inr ⟨st, pyIndex text st.activeEdge, nextIdx,
            ⟨rfl, rfl, rfl, rfl⟩, hlk, rfl⟩))

end DNARepeatFinder

namespace DNARepeatFinder

/-- After a Rule-2 extension (`ruleNewLeaf` or `ruleSplit`) and the
active-point update of lines 74–80, the loop continues successfully,
given the induction hypothesis for the remaining fuel. -/
theorem afterRule2_total (text : List Char) (n i fuel : Nat)
    (st stR : BuildState) (r' : Nat → Nat)
    (ih : ∀ (st2 : BuildState) (r2 : Nat → Nat), LoopInv i st2 →
      EdgeDecreasing st2.arena r2 →
      st2.remainder.toNat * (2 * i + 4) + rankOf st2.arena r2 st2.activeNode + 1 ≤ fuel →
      ∃ st', extendLoop text n i fuel st2 = some st' ∧ LoopInv i st' ∧
        ∃ r'', EdgeDecreasing st'.arena r'')
    (hcbR : ChildrenBounded stR.arena) (hlbR : LinksBounded stR.arena)
    (hedR : EdgeDecreasing stR.arena r')
    (hactR : stR.activeNode < stR.arena.size)
    (hremR : stR.remainder = st.remainder)
    (hszR : stR.arena.size ≤ st.arena.size + 2)
    (hrpos : 0 < st.remainder)
    (hQ : st.arena.size + 2 * st.remainder.toNat ≤ 2 * i + 3)
    (hfuel : st.remainder.toNat * (2 * i + 4) + 1 ≤ fuel + 1) :
    ∃ st', extendLoop text n i fuel (stepAfterRule i stR) = some st' ∧
      LoopInv i st' ∧ ∃ r'', EdgeDecreasing st'.arena r'' := by
  have ha2 : (stepAfterRule i stR).arena = stR.arena := stepAfterRule_arena i stR
  have hrem2 : (stepAfterRule i stR).remainder = stR.remainder - 1 :=
    stepAfterRule_remainder i stR
  have hact2 : (stepAfterRule i stR).activeNode < (stepAfterRule i stR).arena.size := by
    rw [ha2]
    exact stepAfterRule_activeNode_lt i stR hlbR (by omega) hactR
  have hrank : rankOf (stepAfterRule i stR).arena r' (stepAfterRule i stR).activeNode <
      (stepAfterRule i stR).arena.size := rankOf_lt_size r' hact2
  have hdist : st.remainder.toNat * (2 * i + 4) =
      (st.remainder.toNat - 1) * (2 * i + 4) + (2 * i + 4) := by
    have h1 : st.remainder.toNat = (st.remainder.toNat - 1) + 1 := by omega
    calc st.remainder.toNat * (2 * i + 4)
        = ((st.remainder.toNat - 1) + 1) * (2 * i + 4) := by rw [← h1]
      _ = (st.remainder.toNat - 1) * (2 * i + 4) + (2 * i + 4) := by ring
  apply ih (stepAfterRule i stR) r'
  · refine ⟨hact2, ?_, ?_, ?_, ?_⟩
    · rw [ha2]; exact hcbR
    · rw [ha2]; exact hlbR
    · rw [hrem2, hremR]; omega
    · rw [ha2, hrem2, hremR]; omega
  · rw [ha2]; exact hedR
  · rw [ha2] at hrank
    rw [ha2, hrem2, hremR]
    have htn : (st.remainder - 1).toNat = st.remainder.toNat - 1 := by omega
    rw [htn]
    omega

/-- The inner `while remainder > 0` loop terminates (the fuel bound is
sufficient) and preserves the loop invariant, for every phase `i`. -/
theorem extendLoop_total (text : List Char) (n i : Nat) :
    ∀ (fuel : Nat) (st : BuildState) (r : Nat → Nat), LoopInv i st →
      EdgeDecreasing st.arena r →
      st.remainder.toNat * (2 * i + 4) + rankOf st.arena r st.activeNode + 1 ≤ fuel →
      ∃ st', extendLoop text n i fuel st = some st' ∧ LoopInv i st' ∧
        ∃ r'', EdgeDecreasing st'.arena r'' := by
  intro fuel
  induction fuel with
  | zero =>
    intro st r _ _ hfuel
    omega
  | succ fuel ih =>
    intro st r hinv hed hfuel
    obtain ⟨hact, hcb, hlb, hr0, hQ⟩ := hinv
    rw [extendLoop]
    by_cases hrem : st.remainder ≤ 0
    · rw [if_pos hrem]
      exact ⟨st, rfl, ⟨hact, hcb, hlb, hr0, hQ⟩, r, hed⟩
    · rw [if_neg hrem]
      have hrpos : 0 < st.remainder := by omega
      have hfuel1 : st.remainder.toNat * (2 * i + 4) + 1 ≤ fuel + 1 := by omega
      rcases loopIter_cases text n i st with
        ⟨st1, c, hcore, hiter⟩ | ⟨st1, nextIdx, el, hcore, ⟨c, hlk⟩, hiter⟩ |
        ⟨st1, hcore, hiter⟩ | ⟨st1, c, nextIdx, hcore, hlk, hiter⟩
      · -- Rule 2, new leaf at the active node
        rw [hiter]
        obtain ⟨hco1, hco2, hco3, hco4⟩ := hcore
        have hact1 : st1.activeNode < st1.arena.size := by
          rw [hco1, hco2]; exact hact
        have hcb1 : ChildrenBounded st1.arena := by rw [hco1]; exact hcb
        have hlb1 : LinksBounded st1.arena := by rw [hco1]; exact hlb
        have hed1 : EdgeDecreasing st1.arena r := by rw [hco1]; exact hed
        obtain ⟨hcbR, hlbR, hedR⟩ := ruleNewLeaf_inv i n c st1 r hact1 hcb1 hlb1 hed1
        exact afterRule2_total text n i fuel st (ruleNewLeaf i n c st1) _ ih
          hcbR hlbR hedR
          (by rw [ruleNewLeaf_activeNode, ruleNewLeaf_size]; omega)
          (by rw [ruleNewLeaf_remainder]; exact hco3)
          (by rw [ruleNewLeaf_size, hco1]; omega)
          hrpos hQ hfuel1
      · -- walk down (`continue`)
        rw [hiter]
        obtain ⟨hco1, hco2, hco3, hco4⟩ := hcore
        have hch := lookupChild_mem hlk
        have hnlt : nextIdx < st.arena.size := hcb st.activeNode (c, nextIdx) hch
        have hrk : rankOf st.arena r nextIdx < rankOf st.arena r st.activeNode :=
          rankOf_lt_of_edge hcb hed hch
        apply ih
          ({ st1 with
              activeEdge := st1.activeEdge + el
              activeLength := st1.activeLength - el
              activeNode := nextIdx }) r
        · refine ⟨?_, ?_, ?_, ?_, ?_⟩ <;> dsimp only
          · rw [hco1]; exact hnlt
          · rw [hco1]; exact hcb
          · rw [hco1]; exact hlb
          · rw [hco3]; omega
          · rw [hco1, hco3]; exact hQ
        · dsimp only; rw [hco1]; exact hed
        · dsimp only
          rw [hco1, hco3]
          omega
      · -- Rule 1 match (`break`)
        rw [hiter]
        obtain ⟨hco1, hco2, hco3, hco4⟩ := hcore
        have hact1 : st1.activeNode < st1.arena.size := by
          rw [hco1, hco2]; exact hact
        have hcb1 : ChildrenBounded st1.arena := by rw [hco1]; exact hcb
        have hlb1 : LinksBounded st1.arena := by rw [hco1]; exact hlb
        have hed1 : EdgeDecreasing st1.arena r := by rw [hco1]; exact hed
        obtain ⟨hcbM, hlbM, hedM⟩ := ruleMatch_inv st1 r hact1 hcb1 hlb1 hed1
        refine ⟨ruleMatch st1, rfl, ⟨?_, hcbM, hlbM, ?_, ?_⟩, r, hedM⟩
        · rw [ruleMatch_activeNode, ruleMatch_arena_size]
          rw [hco1, hco2]; exact hact
        · rw [ruleMatch_remainder, hco3]; omega
        · rw [ruleMatch_arena_size, ruleMatch_remainder, hco1, hco3]; exact hQ
      · -- Rule 2, edge split
        rw [hiter]
        obtain ⟨hco1, hco2, hco3, hco4⟩ := hcore
        have hch := lookupChild_mem hlk
        have hact1 : st1.activeNode < st1.arena.size := by
          rw [hco1, hco2]; exact hact
        have hcb1 : ChildrenBounded st1.arena := by rw [hco1]; exact hcb
        have hlb1 : LinksBounded st1.arena := by rw [hco1]; exact hlb
        have hed1 : EdgeDecreasing st1.arena r := by rw [hco1]; exact hed
        have hnlt : nextIdx < st1.arena.size := by
          rw [hco1]; exact hcb st.activeNode (c, nextIdx) hch
        have hrlt : r nextIdx < r st1.activeNode := by
          rw [hco2]; exact hed st.activeNode (c, nextIdx) hch
        obtain ⟨hcbR, hlbR, hedR⟩ :=
          ruleSplit_inv text i n c nextIdx st1 r hact1 hnlt hrlt hcb1 hlb1 hed1
        exact afterRule2_total text n i fuel st (ruleSplit text i n c nextIdx st1) _ ih
          hcbR hlbR hedR
          (by rw [ruleSplit_activeNode, ruleSplit_size]; omega)
          (by rw [ruleSplit_remainder]; exact hco3)
          (by rw [ruleSplit_size, hco1])
          hrpos hQ hfuel1

end DNARepeatFinder

namespace DNARepeatFinder

theorem initState_flat : ∀ j : Nat, getNode initState.arena j = rootNode := by
  intro j
  rw [getNode_eq_dite]
  split
  next h =>
    have hj : j = 0 := by
      have : initState.arena.size = 1 := rfl
      omega
    subst hj
    rfl
  · rfl

/-- Running the first `k` phases of `build_suffix_tree` succeeds and
establishes the loop invariant for the next phase. -/
theorem buildPhases_total (text : List Char) :
    ∀ k : Nat, k ≤ text.length →
      ∃ st, (List.range k).foldl
        (fun acc i => acc.bind (fun st =>
          extendLoop text text.length i (buildFuel text.length)
            { st with remainder := st.remainder + 1, lastNewNode := none }))
        (some initState) = some st ∧
        st.activeNode < st.arena.size ∧ ChildrenBounded st.arena ∧
        LinksBounded st.arena ∧ (∃ r, EdgeDecreasing st.arena r) ∧
        0 ≤ st.remainder ∧ st.arena.size + 2 * st.remainder.toNat ≤ 2 * k + 1 := by
  intro k
  induction k with
  | zero =>
    intro _
    refine ⟨initState, rfl, ?_, ?_, ?_, ⟨fun _ => 0, ?_⟩, ?_, ?_⟩
    · exact Nat.zero_lt_one
    · intro j ch hch
      rw [initState_flat] at hch
      simp [rootNode] at hch
    · intro j v h
      rw [initState_flat] at h
      simp [rootNode] at h
    · intro j ch hch
      rw [initState_flat] at hch
      simp [rootNode] at hch
    · exact le_refl 0
    · exact le_refl 1
  | succ k ihk =>
    intro hk1
    obtain ⟨st, hfold, hact, hcb, hlb, ⟨r, hed⟩, hr0, hQ⟩ := ihk (by omega)
    rw [List.range_succ, List.foldl_append, hfold]
    have hszpos : 0 < st.arena.size := by omega
    have hremk : st.remainder.toNat ≤ k := by omega
    have htn : (st.remainder + 1).toNat = st.remainder.toNat + 1 := by omega
    have hrank : rankOf st.arena r st.activeNode < st.arena.size :=
      rankOf_lt_size r hact
    have hmul : (st.remainder.toNat + 1) * (2 * k + 4) ≤
        (k + 1) * (2 * k + 4) :=
      Nat.mul_le_mul_right _ (by omega)
    have hmul2 : (k + 1) * (2 * k + 4) ≤ text.length * (2 * text.length + 2) :=
      Nat.mul_le_mul (by omega) (by omega)
    have hsq : 4 * (text.length + 2) * (text.length + 2) =
        4 * (text.length * text.length) + 16 * text.length + 16 := by ring
    have hlin : text.length * (2 * text.length + 2) =
        2 * (text.length * text.length) + 2 * text.length := by ring
    have hfuelbound : (st.remainder + 1).toNat * (2 * k + 4) +
        rankOf st.arena r st.activeNode + 1 ≤ buildFuel text.length := by
      unfold buildFuel
      rw [htn]
      omega
    obtain ⟨st', hrun, ⟨hact', hcb', hlb', hr0', hQ'⟩, r', hed'⟩ :=
      extendLoop_total text text.length k (buildFuel text.length)
        { st with remainder := st.remainder + 1, lastNewNode := none } r
        ⟨hact, hcb, hlb, by dsimp only; omega, by dsimp only; omega⟩
        hed (by dsimp only; exact hfuelbound)
    refine ⟨st', ?_, hact', hcb', hlb', ⟨r', hed'⟩, hr0', by omega⟩
    simpa using hrun

/-- The whole of `build_suffix_tree`'s phase loop succeeds. -/
theorem buildOnText_total (text : List Char) : ∃ st, buildOnText text = some st := by
  obtain ⟨st, h, _⟩ := buildPhases_total text text.length (le_refl _)
  exact ⟨st, h⟩

end DNARepeatFinder

namespace DNARepeatFinder

/-- C6: for every valid non-empty sequence, constructing the suffix tree
terminates: the inner extension loop always makes progress within the
proven fuel bound, and construction completes, returning an arena. -/
theorem build_suffix_tree_terminates (s : List Char) (_hne : s ≠ [])
    (_hv : validDNA s) : ∃ arena, build_suffix_tree s = some arena := by
  obtain ⟨st, h⟩ := buildOnText_total (s ++ ['$'])
  refine ⟨st.arena, ?_⟩
  unfold build_suffix_tree
  rw [h]
  rfl

/-- C6, witness: construction of the tree for S = "ACGT" completes. -/
theorem build_suffix_tree_terminates_witness :
    ∃ arena, build_suffix_tree ['A', 'C', 'G', 'T'] = some arena :=
  build_suffix_tree_terminates ['A', 'C', 'G', 'T'] (by decide) (by decide)

end DNARepeatFinder
